import Mathlib

/-!
Verification of the carla1s session / actor / executor subsystem.

Shallow embedding of the Python sources:
* `src/context.py`   — `Context.spawn_all_actors`, `Context.destroy_all_actors`,
  `Context.test_connection`, `Context.disconnect`, `Context.__exit__`,
  `Context.stop_all_sensors`.
* `src/actors/actor.py` — `Actor.spawn`, `Actor.destroy`, `Actor.set_attribute`,
  `Actor.set_gravity`, `Actor.set_physics`.
* `src/actors/sensor.py`, `src/actors/sensors/rgb_camera.py` — the single-slot
  sensor mailbox and its callback.
* `src/executors/manual_executor.py`, `src/executors/executor.py` — Driven-mode
  activation and the blocking waits.

Registered actors are identified by their registration index `0, 1, …, n-1`
(the order of `Context._actors`); the static parent reference of actor `i` is
`parent i : Option Nat` (an index).  Remote side effects are recorded as an
ordered trace of `RemoteCall`s.  Fallible Python code returns `Except PyErr`.
-/

namespace Carla1s

/-- Remote mutating calls issued to the CARLA server, recorded in order. -/
inductive RemoteCall where
  | spawnActor (idx : Nat)
  | destroyActor (idx : Nat)
  | setEnableGravity (idx : Nat) (opt : Bool)
  | setEnablePhysics (idx : Nat) (opt : Bool)
  | stopSensor (idx : Nat)
  | applySettings (sync : Bool) (fds : ℚ)
  | tick
  deriving DecidableEq

/-- Python exception classes raised by the embedded code. -/
inductive PyErr where
  | contextError
  | carlaError
  | executorError
  | runtimeError
  | keyError
  | attributeError
  deriving DecidableEq

/-! ## The spawn-order computation of `Context.spawn_all_actors`

The Python code builds `actors_tree : dict` mapping an actor to the list of its
children, by one pass over `self.actors` in registration order:

    for actor in self.actors:
        if actor.parent is None:
            actors_tree[actor] = []
        else:
            if actor.parent not in actors_tree:
                actors_tree[actor.parent] = []
            actors_tree[actor.parent].append(actor)

then flattens it by depth-first traversal from the parentless actors.
A Python `dict` is embedded as an association list with insertion-order keys
(only per-key values matter here, lookups are by key). -/

/-- `d[k]` (`None` when the key is absent). -/
def dictLookup : List (Nat × List Nat) → Nat → Option (List Nat)
  | [], _ => none
  | (k, v) :: t, key => if k = key then some v else dictLookup t key

/-- `d[k] = v` : overwrite an existing binding, otherwise add one. -/
def dictSet : List (Nat × List Nat) → Nat → List Nat → List (Nat × List Nat)
  | [], key, v => [(key, v)]
  | (k, w) :: t, key, v =>
    if k = key then (key, v) :: t else (k, w) :: dictSet t key v

/-- `if p not in d: d[p] = []` followed by `d[p].append(c)`. -/
def dictAppend (d : List (Nat × List Nat)) (p c : Nat) : List (Nat × List Nat) :=
  match dictLookup d p with
  | some l => dictSet d p (l ++ [c])
  | none => dictSet d p [c]

/-- One iteration of the `actors_tree` construction loop, for actor `a`. -/
def buildTreeStep (parent : Nat → Option Nat) (d : List (Nat × List Nat)) (a : Nat) :
    List (Nat × List Nat) :=
  match parent a with
  | none => dictSet d a []
  | some p => dictAppend d p a

/-- `actors_tree` after the loop over all `n` registered actors. -/
def buildTree (parent : Nat → Option Nat) (n : Nat) : List (Nat × List Nat) :=
  (List.range n).foldl (buildTreeStep parent) []

/-- `actors_tree.get(node, [])`, as used by the traversal. -/
def childrenOf (d : List (Nat × List Nat)) (k : Nat) : List Nat :=
  (dictLookup d k).getD []

/-- The recursive `dfs` of `spawn_all_actors`: emit the node, then recurse into
its children.  `fuel` bounds the recursion depth; every actor occurs in at most
one child list of `actors_tree`, so paths from the roots never revisit a node
and depth `n` is never exceeded — fuel `n + 1` reproduces the (unbounded)
Python recursion exactly. -/
def dfsF (ch : Nat → List Nat) : Nat → Nat → List Nat
  | 0, _ => []
  | f + 1, x => x :: ((ch x).map (dfsF ch f)).flatten

/-- `[actor for actor in self.actors if actor.parent is None]`. -/
def rootsList (parent : Nat → Option Nat) (n : Nat) : List Nat :=
  (List.range n).filter (fun a => (parent a).isNone)

/-- `sorted_actors` as computed by `Context.spawn_all_actors`. -/
def spawnOrder (parent : Nat → Option Nat) (n : Nat) : List Nat :=
  ((rootsList parent n).map (dfsF (childrenOf (buildTree parent n)) (n + 1))).flatten

/-! ## Actor state and the per-actor operations of `src/actors/actor.py` -/

/-- Key of the deferred-action dictionary `Actor._setup`.  `Actor.set_physics`
stores under the string key `'set_physics'`; the (buggy) pre-spawn branch of
`Actor.set_gravity` subscripts with the tuple `('set_gravity', option)`, which
is a distinct kind of key. -/
inductive SetupKey where
  | str (s : String)
  | pair (s : String) (b : Bool)
  deriving DecidableEq

/-- Lookup in the `_setup` dictionary. -/
def setupLookup : List (SetupKey × Bool) → SetupKey → Option Bool
  | [], _ => none
  | (k, v) :: t, key => if k = key then some v else setupLookup t key

/-- `self._setup[key] = value` (overwrite or append, insertion order kept). -/
def setupSet : List (SetupKey × Bool) → SetupKey → Bool → List (SetupKey × Bool)
  | [], key, v => [(key, v)]
  | (k, w) :: t, key, v =>
    if k = key then (key, v) :: t else (k, w) :: setupSet t key v

/-- `self._attributes[key] = value` on the string-keyed attribute bag. -/
def attrSet : List (String × String) → String → String → List (String × String)
  | [], key, v => [(key, v)]
  | (k, w) :: t, key, v =>
    if k = key then (key, v) :: t else (k, w) :: attrSet t key v

def attrLookup : List (String × String) → String → Option String
  | [], _ => none
  | (k, v) :: t, key => if k = key then some v else attrLookup t key

/-- Mutable state of one `Actor` wrapper.  `entity = none` mirrors
`self._entity is None`; `entity = some alive` mirrors a remote entity whose
`is_alive` is `alive`.  `listening` mirrors the remote sensor's
`is_listening`, `isSensor` whether the wrapper is a `Sensor` instance. -/
structure ActorSt where
  entity : Option Bool
  name : String
  attrs : List (String × String)
  setup : List (SetupKey × Bool)
  isSensor : Bool
  listening : Bool
  deriving DecidableEq

/-- `Actor.is_alive`. -/
def isAlive (a : ActorSt) : Bool := a.entity = some true

/-- `Actor.set_gravity`.  When alive, the option is applied remotely.  When not
alive the source executes `self._setup['set_gravity', option]` — a dictionary
*subscript read* with a tuple key (not an assignment), which raises `KeyError`
whenever that tuple key is absent, and in any case never records anything. -/
def set_gravity (i : Nat) (a : ActorSt) (opt : Bool) :
    Except PyErr ActorSt × List RemoteCall :=
  if isAlive a then (.ok a, [.setEnableGravity i opt])
  else
    match setupLookup a.setup (.pair "set_gravity" opt) with
    | some _ => (.ok a, [])
    | none => (.error .keyError, [])

/-- `Actor.set_physics`: applied remotely when alive, else recorded in the
deferred-action bag under the string key `'set_physics'`. -/
def set_physics (i : Nat) (a : ActorSt) (opt : Bool) :
    Except PyErr ActorSt × List RemoteCall :=
  if isAlive a then (.ok a, [.setEnablePhysics i opt])
  else (.ok { a with setup := setupSet a.setup (.str "set_physics") opt }, [])

/-- `Actor.set_attribute`: ignored (with a warning) on an alive actor,
recorded in the attribute bag otherwise. -/
def set_attribute (a : ActorSt) (key v : String) : ActorSt :=
  if isAlive a then a else { a with attrs := attrSet a.attrs key v }

/-- `getattr(self, setup)(option)` for one entry of `_setup.items()`; only the
two configuration methods above can be named by a stored key. -/
def setupDispatch (i : Nat) (a : ActorSt) (key : SetupKey) (opt : Bool) :
    Except PyErr ActorSt × List RemoteCall :=
  match key with
  | .str s =>
    if s = "set_gravity" then set_gravity i a opt
    else if s = "set_physics" then set_physics i a opt
    else (.error .attributeError, [])
  | .pair _ _ => (.error .attributeError, [])

/-- `for setup, option in self._setup.items(): getattr(self, setup)(option)`. -/
def applySetup (i : Nat) : ActorSt → List (SetupKey × Bool) →
    Except PyErr ActorSt × List RemoteCall
  | a, [] => (.ok a, [])
  | a, (key, opt) :: rest =>
    match setupDispatch i a key opt with
    | (.ok a', tr) =>
      let (res, tr') := applySetup i a' rest
      (res, tr ++ tr')
    | (.error e, tr) => (.error e, tr)

/-- Pointwise update of the registry's actor table. -/
def updActor (st : Nat → ActorSt) (i : Nat) (a : ActorSt) : Nat → ActorSt :=
  fun j => if j = i then a else st j

/-- `Actor.spawn` for registered actor `i`.  In order: the duplicate-spawn
check (`ContextError` when the entity is alive, a warning when present but
dead), the local blueprint/role-name/attribute preparation, the parent-alive
check (`ContextError` when a parent is set and not alive), the remote
`world.spawn_actor` call (modelled as succeeding), and finally the replay of
the deferred-action bag in recording order. -/
def actorSpawn (parent : Nat → Option Nat) (st : Nat → ActorSt) (i : Nat) :
    Except PyErr (Nat → ActorSt) × List RemoteCall :=
  let a := st i
  if isAlive a then (.error .contextError, [])
  else
    -- blueprint lookup is local; role_name is set only when a name was given
    let a1 := if a.name = "" then a else
      { a with attrs := attrSet a.attrs "role_name" a.name }
    let parentOk := match parent i with
      | some p => isAlive (st p)
      | none => true
    if parentOk then
      -- world.spawn_actor succeeds and yields a live entity; the replay of the
      -- deferred bag follows, its exception (if any) propagating
      let a2 := { a1 with entity := some true }
      let r := applySetup i a2 a2.setup
      (r.1.map (fun a3 => updActor st i a3), .spawnActor i :: r.2)
    else (.error .contextError, [])

/-- `for actor in sorted_actors: actor.spawn(self.world)` — spawning stops at
the first raised exception, which propagates. -/
def runSpawnList (parent : Nat → Option Nat) :
    (Nat → ActorSt) → List Nat → Except PyErr (Nat → ActorSt) × List RemoteCall
  | st, [] => (.ok st, [])
  | st, i :: rest =>
    match actorSpawn parent st i with
    | (.ok st', tr) =>
      let (res, tr') := runSpawnList parent st' rest
      (res, tr ++ tr')
    | (.error e, tr) => (.error e, tr)

/-- `Context.spawn_all_actors`: order the registry, then spawn in order. -/
def spawn_all_actors (parent : Nat → Option Nat) (n : Nat) (st : Nat → ActorSt) :
    Except PyErr (Nat → ActorSt) × List RemoteCall :=
  runSpawnList parent st (spawnOrder parent n)

/-- `Actor.destroy`: a remote destroy plus clearing `_entity` when an entity is
present, otherwise a logged no-op. -/
def actorDestroy (st : Nat → ActorSt) (i : Nat) : (Nat → ActorSt) × List RemoteCall :=
  if (st i).entity.isSome then
    (updActor st i { st i with entity := none }, [.destroyActor i])
  else (st, [])

/-- `for actor in self.actors: actor.destroy()` over a list of indices. -/
def destroyList : (Nat → ActorSt) → List Nat → (Nat → ActorSt) × List RemoteCall
  | st, [] => (st, [])
  | st, i :: rest =>
    let (st', tr) := actorDestroy st i
    let (st'', tr') := destroyList st' rest
    (st'', tr ++ tr')

/-- `Context.destroy_all_actors`: destroy in plain registration order. -/
def destroy_all_actors (n : Nat) (st : Nat → ActorSt) :
    (Nat → ActorSt) × List RemoteCall :=
  destroyList st (List.range n)

/-- `Sensor.stop`: remote stop only when an entity is present and listening;
always logs. -/
def sensorStop (st : Nat → ActorSt) (i : Nat) : (Nat → ActorSt) × List RemoteCall :=
  if (st i).entity.isSome && (st i).listening then
    (updActor st i { st i with listening := false }, [.stopSensor i])
  else (st, [])

/-- `Context.stop_all_sensors`: `stop()` on every registered `Sensor`. -/
def stopList : (Nat → ActorSt) → List Nat → (Nat → ActorSt) × List RemoteCall
  | st, [] => (st, [])
  | st, i :: rest =>
    let (st', tr) := if (st i).isSensor then sensorStop st i else (st, [])
    let (st'', tr') := stopList st' rest
    (st'', tr ++ tr')

/-! ## The connection guard of `src/context.py` -/

/-- The `carla.Client` handle: only its configured timeout matters here. -/
structure ClientSt where
  timeout : ℚ
  deriving DecidableEq

/-- The `Context` aggregate: client handle, configured default timeout, and the
registry (`n` actors in registration order with their parent references). -/
structure CtxSt where
  client : Option ClientSt
  timeout_sec : ℚ
  n : Nat
  parent : Nat → Option Nat
  actors : Nat → ActorSt

/-- `client.get_server_version()`: raises `RuntimeError` on probe failure or
timeout (`probeOk = false`), the only exception the carla client raises. -/
def get_server_version (probeOk : Bool) : Except PyErr Unit :=
  if probeOk then .ok () else .error .runtimeError

/-- `Context.test_connection(test_timeout_sec)`.  `None` client: plain `False`.
Otherwise `set_timeout(test_timeout_sec)`, probe inside `try`, `except
RuntimeError: return False`, and a `finally` that restores
`set_timeout(self._timeout_sec)` on every path. -/
def test_connection (ctx : CtxSt) (probeOk : Bool) (test_timeout_sec : ℚ) :
    Except PyErr (Bool × CtxSt) :=
  match ctx.client with
  | none => .ok (false, ctx)
  | some _ =>
    let probing := { ctx with client := some ⟨test_timeout_sec⟩ }
    let restored := { probing with client := some ⟨ctx.timeout_sec⟩ }
    match get_server_version probeOk with
    | .ok _ => .ok (true, restored)
    | .error .runtimeError => .ok (false, restored)
    | .error e => .error e

/-- `Context.disconnect`: stop all sensors, destroy all actors, clear the
client handle. -/
def disconnect (ctx : CtxSt) : CtxSt × List RemoteCall :=
  let (st1, tr1) := stopList ctx.actors (List.range ctx.n)
  let (st2, tr2) := destroyList st1 (List.range ctx.n)
  ({ ctx with actors := st2, client := none }, tr1 ++ tr2)

/-- `Context.__exit__`: probe the connection (with the default 0.1 s test
timeout), tear everything down via `disconnect`, log, and return `None` — the
`with` statement therefore never suppresses an in-flight exception, which is
modelled by the returned `Bool` being `false`. -/
def context_exit (ctx : CtxSt) (probeOk : Bool) (excPresent : Bool) :
    Except PyErr ((CtxSt × Bool) × List RemoteCall) :=
  match test_connection ctx probeOk (1 / 10) with
  | .ok (_, ctx1) =>
    let (ctx2, tr) := disconnect ctx1
    -- excPresent only selects the log severity in the source
    .ok ((ctx2, false && excPresent), tr)
  | .error e => .error e

/-! ## The manual (Driven-mode) executor of `src/executors/manual_executor.py` -/

/-- `carla.WorldSettings`, restricted to the fields the executor touches. -/
structure WorldSettings where
  synchronous_mode : Bool
  fixed_delta_seconds : ℚ
  deriving DecidableEq

/-- The remote simulation: its settings and how many steps it has executed. -/
structure SimWorld where
  settings : WorldSettings
  ticks : Nat
  deriving DecidableEq

/-- `world.tick()` (the pacing sleep of `ManualExecutor.tick` is local). -/
def world_tick (w : SimWorld) : SimWorld × List RemoteCall :=
  ({ w with ticks := w.ticks + 1 }, [.tick])

/-- `ManualExecutor.set_synchronous_mode(option)`: rewrite the settings, apply
them remotely, and force one `tick()` so they take effect. -/
def set_synchronous_mode (fds : ℚ) (w : SimWorld) (opt : Bool) :
    SimWorld × List RemoteCall :=
  let s : WorldSettings := ⟨opt, if opt then fds else 0⟩
  ({ settings := s, ticks := w.ticks + 1 }, [.applySettings opt s.fixed_delta_seconds, .tick])

/-- `Executor.is_synchronous_mode`: read of the server's settings. -/
def is_synchronous_mode (w : SimWorld) : Bool :=
  w.settings.synchronous_mode

/-- `ManualExecutor.__enter__`: raise `ExecutorError` (before any mutating
call) when the server already reports synchronous stepping, else switch the
server to synchronous mode. -/
def manual_executor_enter (fds : ℚ) (w : SimWorld) :
    Except PyErr SimWorld × List RemoteCall :=
  if is_synchronous_mode w then (.error .executorError, [])
  else
    let (w', tr) := set_synchronous_mode fds w true
    (.ok w', tr)

/-- The loop of `ManualExecutor.wait_ticks` runs its body exactly
`max(ticks, 0)` times (`count_wait_ticks` starts at 0 and increments). -/
def waitTicksLoop : Nat → SimWorld → SimWorld × List RemoteCall
  | 0, w => (w, [])
  | m + 1, w =>
    let (w1, tr1) := world_tick w
    let (w2, tr2) := waitTicksLoop m w1
    (w2, tr1 ++ tr2)

/-- `ManualExecutor.wait_ticks(ticks)`: `while count_wait_ticks < ticks:
self.tick(); count_wait_ticks += 1` (progress logging is local). -/
def wait_ticks (ticks : Int) (w : SimWorld) : SimWorld × List RemoteCall :=
  waitTicksLoop ticks.toNat w

/-- The loop of `ManualExecutor.wait_real_seconds`: `time_spent` starts at 0,
and while `time_spent < seconds` the executor ticks and re-reads the monotonic
clock.  Successive `time.perf_counter()` readings are modelled by `clock`;
`fuel` bounds the loop, which the source bounds only by real time advancing —
the zero-duration behaviour is independent of `fuel`. -/
def waitRealLoop (seconds : ℚ) (clock : Nat → ℚ) (t0 : ℚ) :
    Nat → Nat → ℚ → SimWorld → SimWorld × List RemoteCall
  | 0, _, _, w => (w, [])
  | fuel + 1, k, spent, w =>
    if spent < seconds then
      let (w1, tr1) := world_tick w
      let (w2, tr2) := waitRealLoop seconds clock t0 fuel (k + 1) (clock k - t0) w1
      (w2, tr1 ++ tr2)
    else (w, [])

/-- `ManualExecutor.wait_real_seconds(seconds)`. -/
def wait_real_seconds (seconds : ℚ) (clock : Nat → ℚ) (fuel : Nat) (w : SimWorld) :
    SimWorld × List RemoteCall :=
  waitRealLoop seconds clock (clock 0) fuel 1 0 w

/-! ## The sensor single-slot mailbox (`Sensor` + `RgbCamera._callback`) -/

/-- A decoded sensor sample (payload shape abstracted away). -/
structure SensorData where
  frame : Nat
  timestamp : ℚ
  deriving DecidableEq

/-- The mailbox of one sensor: `self.data` and the `on_data_ready` event. -/
structure SensorSt where
  slot : Option SensorData
  ready : Bool
  deriving DecidableEq

/-- Primitive mailbox operations, in the granularity at which a concurrent
reader can observe the callback's effects. -/
inductive SlotEv where
  | clear
  | store (s : SensorData)
  | set
  deriving DecidableEq

def stepEv (st : SensorSt) : SlotEv → SensorSt
  | .clear => { st with ready := false }
  | .store s => { st with slot := some s }
  | .set => { st with ready := true }

/-- `RgbCamera._callback`: `on_data_ready.clear()` first, then decode and store
the sample into `self.data`, then `on_data_ready.set()` last. -/
def callbackEvents (s : SensorData) : List SlotEv :=
  [.clear, .store s, .set]

def runEvents (st : SensorSt) : List SlotEv → SensorSt
  | [] => st
  | e :: es => runEvents (stepEv st e) es

/-- `l1` is an initial segment of `l2`: the observation points of an event
sequence. -/
def Pfx (l1 l2 : List SlotEv) : Prop := ∃ t, l1 ++ t = l2

/-- The fresh mailbox: `self.data = None`, `Event()` unset. -/
def sensorInit : SensorSt := ⟨none, false⟩

/-! ## Ancestor chains and acyclicity of the parent references -/

/-- The `k`-th ancestor along the parent references (`none` when the chain
ends earlier). -/
def ancIter (parent : Nat → Option Nat) : Nat → Nat → Option Nat
  | 0, a => some a
  | k + 1, a =>
    match parent a with
    | some p => ancIter parent k p
    | none => none

/-- A fresh, never-spawned registered actor with no pre-spawn configuration. -/
def freshActor : ActorSt :=
  { entity := none, name := "", attrs := [], setup := [], isSensor := false,
    listening := false }

def condKey (parent : Nat → Option Nat) (k p : Nat) : Prop :=
  (p < k ∧ parent p = none) ∨ ∃ a < k, parent a = some p

instance (parent : Nat → Option Nat) (k p : Nat) : Decidable (condKey parent k p) := by
  unfold condKey
  infer_instance

/-- The acyclicity hypotheses on the registered parent references: parents are
registered, a rank strictly decreases from child to parent, and ranks stay
below `n` (for a finite acyclic forest, depth is such a rank). -/
def RegForest (parent : Nat → Option Nat) (rank : Nat → Nat) (n : Nat) : Prop :=
  (∀ a p, a < n → parent a = some p → p < n) ∧
  (∀ a p, a < n → parent a = some p → rank p < rank a) ∧
  (∀ a, a < n → rank a < n)

/-- The children function realised by `actors_tree` when no root follows its
children in registration order. -/
def chF (parent : Nat → Option Nat) (n : Nat) : Nat → List Nat :=
  fun p => (List.range n).filter (fun a => parent a = some p)

/-- Registration used to refute C1 as stated: actor 0 (registered first) is
the child of the parentless actor 1 (registered second); acyclic. -/
def parC1 : Nat → Option Nat := fun i => if i = 0 then some 1 else none

def rankC1 : Nat → Nat := fun i => if i = 0 then 1 else 0

/-- Concrete registration for the C1 witness: root 0, then its child 1. -/
def parW : Nat → Option Nat := fun i => if i = 1 then some 0 else none

/-- Registration used for C2: actors 0 and 1 form a parent cycle. -/
def parC2 : Nat → Option Nat :=
  fun i => if i = 0 then some 1 else if i = 1 then some 0 else none

/-- An actor wrapper holding a live remote entity. -/
def spawnedActor : ActorSt := { freshActor with entity := some true }

/-- A concrete two-actor context (root 0 with child 1, both spawned, client
connected with a 1 s default timeout). -/
def ctxW : CtxSt :=
  { client := some ⟨1⟩, timeout_sec := 1, n := 2, parent := parW,
    actors := fun _ => spawnedActor }

/-- A server world already in synchronous (driven) stepping. -/
def worldSync : SimWorld := ⟨⟨true, 0⟩, 0⟩

/-! ## Dictionary lemmas -/

theorem dictLookup_set_self (d : List (Nat × List Nat)) (k : Nat) (v : List Nat) :
    dictLookup (dictSet d k v) k = some v := by
  induction d with
  | nil => simp [dictSet, dictLookup]
  | cons h t ih =>
    obtain ⟨k', v'⟩ := h
    by_cases hk : k' = k <;> simp [dictSet, dictLookup, hk, ih]

theorem dictLookup_set_other (d : List (Nat × List Nat)) {k key : Nat} (v : List Nat)
    (h : k ≠ key) : dictLookup (dictSet d k v) key = dictLookup d key := by
  induction d with
  | nil => simp [dictSet, dictLookup, h]
  | cons hd t ih =>
    obtain ⟨k', v'⟩ := hd
    by_cases hk : k' = k
    · subst hk
      simp [dictSet, dictLookup, h]
    · simp [dictSet, dictLookup, hk, ih]

theorem dictLookup_append_self (d : List (Nat × List Nat)) (p c : Nat) :
    dictLookup (dictAppend d p c) p = some ((dictLookup d p).getD [] ++ [c]) := by
  unfold dictAppend
  cases h : dictLookup d p <;> simp [h, dictLookup_set_self]

theorem dictLookup_append_other (d : List (Nat × List Nat)) {p q : Nat} (c : Nat)
    (h : p ≠ q) : dictLookup (dictAppend d p c) q = dictLookup d q := by
  unfold dictAppend
  cases hd : dictLookup d p <;> simp [dictLookup_set_other _ _ h]

theorem buildTree_succ (parent : Nat → Option Nat) (k : Nat) :
    buildTree parent (k + 1) = buildTreeStep parent (buildTree parent k) k := by
  unfold buildTree
  rw [List.range_succ, List.foldl_append]
  rfl

/-! ## Characterisation of `actors_tree`

`condKey parent k p` says key `p` is present in the dict after processing
actors `0, …, k-1`: either `p` is an already-processed root, or some processed
actor has parent `p`. -/

/-- After processing the first `k` registered actors, each present key maps to
exactly the processed actors having it as parent, in registration order —
provided no parentless actor is registered after one of its children
(hypothesis `Hroot`; without it the `actors_tree[actor] = []` reset of the
source deletes previously appended children). -/
theorem buildTree_lookup_eq {parent : Nat → Option Nat} {n : Nat}
    (Hroot : ∀ a p, a < n → parent a = some p → parent p = none → p < a) :
    ∀ k, k ≤ n → ∀ p,
      dictLookup (buildTree parent k) p =
        if condKey parent k p then
          some ((List.range k).filter (fun a => parent a = some p))
        else none := by
  intro k
  induction k with
  | zero =>
    intro _ p
    rw [if_neg]
    · rfl
    · rintro (⟨h, _⟩ | ⟨a, ha, _⟩) <;> omega
  | succ k ih =>
    intro hk p
    have hk' : k ≤ n := Nat.le_of_succ_le hk
    rw [buildTree_succ]
    cases hpk : parent k with
    | none =>
      simp only [buildTreeStep, hpk]
      by_cases hp : p = k
      · subst hp
        rw [dictLookup_set_self,
          if_pos (show condKey parent (p + 1) p from Or.inl ⟨Nat.lt_succ_self _, hpk⟩)]
        have hfil : (List.range (p + 1)).filter (fun a => parent a = some p) = [] := by
          rw [List.filter_eq_nil_iff]
          intro a ha
          simp only [List.mem_range] at ha
          simp only [decide_eq_true_eq]
          intro hpar
          rcases Nat.lt_succ_iff_lt_or_eq.mp ha with h | h
          · exact absurd (Hroot a p (by omega) hpar hpk) (by omega)
          · subst h
            rw [hpar] at hpk
            cases hpk
        rw [hfil]
      · rw [dictLookup_set_other _ _ (Ne.symm hp), ih hk' p]
        have hcond : condKey parent (k + 1) p ↔ condKey parent k p := by
          constructor
          · rintro (⟨h1, h2⟩ | ⟨a, ha, h2⟩)
            · exact Or.inl ⟨by omega, h2⟩
            · refine Or.inr ⟨a, ?_, h2⟩
              rcases Nat.lt_succ_iff_lt_or_eq.mp ha with h | h
              · exact h
              · subst h
                rw [h2] at hpk
                cases hpk
          · rintro (⟨h1, h2⟩ | ⟨a, ha, h2⟩)
            · exact Or.inl ⟨by omega, h2⟩
            · exact Or.inr ⟨a, by omega, h2⟩
        have hfil : (List.range (k + 1)).filter (fun a => parent a = some p) =
            (List.range k).filter (fun a => parent a = some p) := by
          rw [List.range_succ, List.filter_append]
          have : List.filter (fun a => parent a = some p) [k] = [] := by
            simp [List.filter, hpk]
          rw [this, List.append_nil]
        rw [hfil]
        by_cases hc : condKey parent k p
        · rw [if_pos hc, if_pos (hcond.mpr hc)]
        · rw [if_neg hc, if_neg (fun h => hc (hcond.mp h))]
    | some q =>
      simp only [buildTreeStep, hpk]
      by_cases hp : p = q
      · subst hp
        rw [dictLookup_append_self, ih hk' p]
        rw [if_pos (show condKey parent (k + 1) p from Or.inr ⟨k, Nat.lt_succ_self _, hpk⟩)]
        have hfil : (List.range (k + 1)).filter (fun a => parent a = some p) =
            (List.range k).filter (fun a => parent a = some p) ++ [k] := by
          rw [List.range_succ, List.filter_append]
          congr 1
          simp [List.filter, hpk]
        rw [hfil]
        by_cases hc : condKey parent k p
        · rw [if_pos hc]
          rfl
        · rw [if_neg hc]
          have hnil : (List.range k).filter (fun a => parent a = some p) = [] := by
            rw [List.filter_eq_nil_iff]
            intro a ha
            simp only [List.mem_range] at ha
            simp only [decide_eq_true_eq]
            intro hpar
            exact hc (Or.inr ⟨a, ha, hpar⟩)
          rw [hnil]
          rfl
      · rw [dictLookup_append_other _ _ (fun h => hp h.symm), ih hk' p]
        have hcond : condKey parent (k + 1) p ↔ condKey parent k p := by
          constructor
          · rintro (⟨h1, h2⟩ | ⟨a, ha, h2⟩)
            · refine Or.inl ⟨?_, h2⟩
              rcases Nat.lt_succ_iff_lt_or_eq.mp h1 with h | h
              · exact h
              · subst h
                rw [h2] at hpk
                cases hpk
            · refine Or.inr ⟨a, ?_, h2⟩
              rcases Nat.lt_succ_iff_lt_or_eq.mp ha with h | h
              · exact h
              · subst h
                rw [h2] at hpk
                exact absurd (Option.some.inj hpk) hp
          · rintro (⟨h1, h2⟩ | ⟨a, ha, h2⟩)
            · exact Or.inl ⟨by omega, h2⟩
            · exact Or.inr ⟨a, by omega, h2⟩
        have hfil : (List.range (k + 1)).filter (fun a => parent a = some p) =
            (List.range k).filter (fun a => parent a = some p) := by
          rw [List.range_succ, List.filter_append]
          have : List.filter (fun a => parent a = some p) [k] = [] := by
            simp [List.filter, hpk, Ne.symm hp]
          rw [this, List.append_nil]
        rw [hfil]
        by_cases hc : condKey parent k p
        · rw [if_pos hc, if_pos (hcond.mpr hc)]
        · rw [if_neg hc, if_neg (fun h => hc (hcond.mp h))]

/-- The children function realised by `actors_tree`, under `Hroot`: the
registered actors with parent `p`, in registration order. -/
theorem childrenOf_buildTree {parent : Nat → Option Nat} {n : Nat}
    (Hroot : ∀ a p, a < n → parent a = some p → parent p = none → p < a) (p : Nat) :
    childrenOf (buildTree parent n) p =
      (List.range n).filter (fun a => parent a = some p) := by
  unfold childrenOf
  rw [buildTree_lookup_eq Hroot n le_rfl p]
  by_cases hc : condKey parent n p
  · rw [if_pos hc]
    rfl
  · rw [if_neg hc]
    have : (List.range n).filter (fun a => parent a = some p) = [] := by
      rw [List.filter_eq_nil_iff]
      intro a ha
      simp only [List.mem_range] at ha
      simp only [decide_eq_true_eq]
      intro hpar
      exact hc (Or.inr ⟨a, ha, hpar⟩)
    rw [this]
    rfl

/-! ## Ancestor-chain lemmas -/

theorem ancIter_one (parent : Nat → Option Nat) (a : Nat) :
    ancIter parent 1 a = parent a := by
  cases h : parent a <;> simp [ancIter, h]

theorem ancIter_add (parent : Nat → Option Nat) (j k a : Nat) :
    ancIter parent (j + k) a = (ancIter parent j a).bind (ancIter parent k) := by
  induction j generalizing a with
  | zero => simp [ancIter]
  | succ j ih =>
    have : j + 1 + k = (j + k) + 1 := by omega
    rw [this]
    cases h : parent a with
    | none => simp [ancIter, h]
    | some p => simp [ancIter, h, ih p]

theorem ancIter_succ_iff {parent : Nat → Option Nat} {k a x : Nat} :
    ancIter parent (k + 1) a = some x ↔
      ∃ c, ancIter parent k a = some c ∧ parent c = some x := by
  rw [ancIter_add parent k 1 a]
  cases h : ancIter parent k a <;> simp [ancIter_one]

theorem anc_lt {parent : Nat → Option Nat} {rank : Nat → Nat} {n : Nat}
    (H : RegForest parent rank n) :
    ∀ k a x, a < n → ancIter parent k a = some x → x < n := by
  intro k
  induction k with
  | zero =>
    intro a x ha h
    cases h
    exact ha
  | succ k ih =>
    intro a x ha h
    cases hp : parent a with
    | none => simp [ancIter, hp] at h
    | some p =>
      simp only [ancIter, hp] at h
      exact ih p x (H.1 a p ha hp) h

theorem anc_rank {parent : Nat → Option Nat} {rank : Nat → Nat} {n : Nat}
    (H : RegForest parent rank n) :
    ∀ k a x, a < n → ancIter parent k a = some x → rank x + k ≤ rank a := by
  intro k
  induction k with
  | zero =>
    intro a x _ h
    cases h
    omega
  | succ k ih =>
    intro a x ha h
    cases hp : parent a with
    | none => simp [ancIter, hp] at h
    | some p =>
      simp only [ancIter, hp] at h
      have h1 := ih p x (H.1 a p ha hp) h
      have h2 := H.2.1 a p ha hp
      omega

theorem anc_root_exists {parent : Nat → Option Nat} {rank : Nat → Nat} {n : Nat}
    (H : RegForest parent rank n) :
    ∀ a, a < n → ∃ r k, ancIter parent k a = some r ∧ parent r = none ∧ k ≤ rank a := by
  suffices h : ∀ m a, a < n → rank a ≤ m →
      ∃ r k, ancIter parent k a = some r ∧ parent r = none ∧ k ≤ rank a by
    intro a ha
    exact h (rank a) a ha le_rfl
  intro m
  induction m with
  | zero =>
    intro a ha hr
    cases hp : parent a with
    | none => exact ⟨a, 0, rfl, hp, Nat.zero_le _⟩
    | some p =>
      have := H.2.1 a p ha hp
      omega
  | succ m ih =>
    intro a ha hr
    cases hp : parent a with
    | none => exact ⟨a, 0, rfl, hp, Nat.zero_le _⟩
    | some p =>
      have hpn := H.1 a p ha hp
      have hrp := H.2.1 a p ha hp
      obtain ⟨r, k, hk, hrt, hkr⟩ := ih p hpn (by omega)
      refine ⟨r, k + 1, ?_, hrt, by omega⟩
      simp [ancIter, hp, hk]

/-! ## Properties of the depth-first traversal -/

theorem mem_chF {parent : Nat → Option Nat} {n p a : Nat} :
    a ∈ chF parent n p ↔ a < n ∧ parent a = some p := by
  simp [chF, List.mem_filter, List.mem_range]

theorem dfsF_self_mem {ch : Nat → List Nat} {f x : Nat} (hf : 0 < f) :
    x ∈ dfsF ch f x := by
  cases f with
  | zero => omega
  | succ f => simp [dfsF]

theorem dfsF_mem_ancIter {parent : Nat → Option Nat} {ch : Nat → List Nat}
    (hch : ∀ x c, c ∈ ch x → parent c = some x) :
    ∀ f x y, y ∈ dfsF ch f x → ∃ k, ancIter parent k y = some x := by
  intro f
  induction f with
  | zero =>
    intro x y h
    simp [dfsF] at h
  | succ f ih =>
    intro x y h
    simp only [dfsF, List.mem_cons, List.mem_flatten, List.mem_map] at h
    rcases h with h | ⟨l, ⟨c, hc, rfl⟩, hy⟩
    · exact ⟨0, by simp [ancIter, h]⟩
    · obtain ⟨k, hk⟩ := ih c y hy
      exact ⟨k + 1, ancIter_succ_iff.mpr ⟨c, hk, hch x c hc⟩⟩

theorem dfsF_mem_lt {parent : Nat → Option Nat} {n : Nat} :
    ∀ f x y, y ∈ dfsF (chF parent n) f x → y = x ∨ y < n := by
  intro f
  induction f with
  | zero =>
    intro x y h
    simp [dfsF] at h
  | succ f ih =>
    intro x y h
    simp only [dfsF, List.mem_cons, List.mem_flatten, List.mem_map] at h
    rcases h with h | ⟨l, ⟨c, hc, rfl⟩, hy⟩
    · exact Or.inl h
    · rcases ih c y hy with h | h
      · exact Or.inr (h ▸ (mem_chF.mp hc).1)
      · exact Or.inr h

theorem mem_dfsF_of_ancIter {parent : Nat → Option Nat} {rank : Nat → Nat} {n : Nat}
    (H : RegForest parent rank n) :
    ∀ k f x y, y < n → ancIter parent k y = some x → k < f →
      y ∈ dfsF (chF parent n) f x := by
  intro k
  induction k with
  | zero =>
    intro f x y _ hanc hf
    cases hanc
    exact dfsF_self_mem hf
  | succ k ih =>
    intro f x y hy hanc hf
    obtain ⟨c, hc, hcx⟩ := ancIter_succ_iff.mp hanc
    have hcn : c < n := anc_lt H k y c hy hc
    cases f with
    | zero => omega
    | succ f =>
      have hmem : y ∈ dfsF (chF parent n) f c := ih f c y hy hc (by omega)
      simp only [dfsF, List.mem_cons, List.mem_flatten, List.mem_map]
      exact Or.inr ⟨dfsF (chF parent n) f c,
        ⟨c, mem_chF.mpr ⟨hcn, hcx⟩, rfl⟩, hmem⟩

/-- Distinct children of the same node have disjoint descendant chains
(the directed version, with `k1 ≤ k2`). -/
theorem sib_core {parent : Nat → Option Nat} {rank : Nat → Nat} {n : Nat}
    (H : RegForest parent rank n) {x c1 c2 y k1 k2 : Nat}
    (h1 : parent c1 = some x) (h2 : parent c2 = some x)
    (hc1n : c1 < n) (hc2n : c2 < n) (hne : c1 ≠ c2) (hle : k1 ≤ k2)
    (ha1 : ancIter parent k1 y = some c1) (ha2 : ancIter parent k2 y = some c2) :
    False := by
  obtain ⟨d, rfl⟩ := Nat.exists_eq_add_of_le hle
  rw [ancIter_add, ha1] at ha2
  simp only [Option.some_bind] at ha2
  cases d with
  | zero =>
    cases ha2
    exact hne rfl
  | succ d =>
    simp only [ancIter, h1] at ha2
    have hxn : x < n := H.1 c1 x hc1n h1
    have hr1 := anc_rank H d x c2 hxn ha2
    have hr2 := H.2.1 c2 x hc2n h2
    omega

theorem sibling_disjoint {parent : Nat → Option Nat} {rank : Nat → Nat} {n : Nat}
    (H : RegForest parent rank n) {x c1 c2 y k1 k2 : Nat}
    (h1 : parent c1 = some x) (h2 : parent c2 = some x)
    (hc1n : c1 < n) (hc2n : c2 < n) (hne : c1 ≠ c2)
    (ha1 : ancIter parent k1 y = some c1) (ha2 : ancIter parent k2 y = some c2) :
    False := by
  rcases le_total k1 k2 with h | h
  · exact sib_core H h1 h2 hc1n hc2n hne h ha1 ha2
  · exact sib_core H h2 h1 hc2n hc1n (Ne.symm hne) h ha2 ha1

theorem root_core {parent : Nat → Option Nat} {r1 r2 y k1 k2 : Nat}
    (h1 : parent r1 = none) (hne : r1 ≠ r2) (hle : k1 ≤ k2)
    (ha1 : ancIter parent k1 y = some r1) (ha2 : ancIter parent k2 y = some r2) :
    False := by
  obtain ⟨d, rfl⟩ := Nat.exists_eq_add_of_le hle
  rw [ancIter_add, ha1] at ha2
  simp only [Option.some_bind] at ha2
  cases d with
  | zero =>
    cases ha2
    exact hne rfl
  | succ d => simp [ancIter, h1] at ha2

theorem root_disjoint {parent : Nat → Option Nat} {r1 r2 y k1 k2 : Nat}
    (h1 : parent r1 = none) (h2 : parent r2 = none) (hne : r1 ≠ r2)
    (ha1 : ancIter parent k1 y = some r1) (ha2 : ancIter parent k2 y = some r2) :
    False := by
  rcases le_total k1 k2 with h | h
  · exact root_core h1 hne h ha1 ha2
  · exact root_core h2 (Ne.symm hne) h ha2 ha1

theorem dfsF_nodup {parent : Nat → Option Nat} {rank : Nat → Nat} {n : Nat}
    (H : RegForest parent rank n) :
    ∀ f x, (dfsF (chF parent n) f x).Nodup := by
  have hch : ∀ x c, c ∈ chF parent n x → parent c = some x :=
    fun x c hc => (mem_chF.mp hc).2
  intro f
  induction f with
  | zero =>
    intro x
    simp [dfsF]
  | succ f ih =>
    intro x
    simp only [dfsF]
    rw [List.nodup_cons]
    constructor
    · intro hx
      rw [List.mem_flatten] at hx
      obtain ⟨l, hl, hxl⟩ := hx
      rw [List.mem_map] at hl
      obtain ⟨c, hc, rfl⟩ := hl
      obtain ⟨k, hk⟩ := dfsF_mem_ancIter hch f c x hxl
      have hcx := hch x c hc
      have hcn := (mem_chF.mp hc).1
      have hxn : x < n := H.1 c x hcn hcx
      have h1 := anc_rank H k x c hxn hk
      have h2 := H.2.1 c x hcn hcx
      omega
    · rw [List.nodup_flatten]
      constructor
      · intro l hl
        rw [List.mem_map] at hl
        obtain ⟨c, _, rfl⟩ := hl
        exact ih c
      · rw [List.pairwise_map]
        have hnd : (chF parent n x).Nodup :=
          List.Nodup.filter _ (List.nodup_range n)
        refine List.Pairwise.imp_of_mem ?_ hnd
        intro c1 c2 hm1 hm2 hne y hy1 hy2
        obtain ⟨k1, hk1⟩ := dfsF_mem_ancIter hch f c1 y hy1
        obtain ⟨k2, hk2⟩ := dfsF_mem_ancIter hch f c2 y hy2
        exact sibling_disjoint H (hch x c1 hm1) (hch x c2 hm2)
          (mem_chF.mp hm1).1 (mem_chF.mp hm2).1 hne hk1 hk2

/-! ## Order lemmas for the flattened traversal -/

theorem pair_sublist_range {a b n : Nat} (hab : a < b) (hbn : b < n) :
    [a, b].Sublist (List.range n) := by
  induction n with
  | zero => omega
  | succ n ih =>
    rw [List.range_succ]
    rcases Nat.lt_succ_iff_lt_or_eq.mp hbn with h | h
    · exact (ih h).trans (List.sublist_append_left _ _)
    · subst h
      exact List.Sublist.append
        (List.singleton_sublist.mpr (List.mem_range.mpr hab)) (List.Sublist.refl _)

theorem pair_sublist_flatten {g : Nat → List Nat} :
    ∀ {L : List Nat} {a b : Nat}, [a, b].Sublist L → a ∈ g a → b ∈ g b →
      [a, b].Sublist (L.map g).flatten := by
  intro L
  induction L with
  | nil =>
    intro a b h _ _
    simp at h
  | cons z L ih =>
    intro a b h ha hb
    cases h with
    | cons _ h' =>
      exact (ih h' ha hb).trans (List.sublist_append_right _ _)
    | cons₂ _ h' =>
      have hbL : b ∈ L := List.singleton_sublist.mp h'
      have h2 : [b].Sublist (L.map g).flatten :=
        List.singleton_sublist.mpr
          (List.mem_flatten.mpr ⟨g b, List.mem_map_of_mem _ hbL, hb⟩)
      exact List.Sublist.append (List.singleton_sublist.mpr ha) h2

theorem dfsF_parent_sublist {parent : Nat → Option Nat} {rank : Nat → Nat} {n : Nat}
    (H : RegForest parent rank n) :
    ∀ k f x p a, ancIter parent k p = some x → p < n → parent a = some p → a < n →
      k + 1 < f → [p, a].Sublist (dfsF (chF parent n) f x) := by
  intro k
  induction k with
  | zero =>
    intro f x p a hanc hpn hpa han hf
    cases hanc
    cases f with
    | zero => omega
    | succ f =>
      simp only [dfsF]
      rw [List.cons_sublist_cons, List.singleton_sublist, List.mem_flatten]
      exact ⟨dfsF (chF parent n) f a,
        List.mem_map_of_mem _ (mem_chF.mpr ⟨han, hpa⟩), dfsF_self_mem (by omega)⟩
  | succ k ih =>
    intro f x p a hanc hpn hpa han hf
    obtain ⟨c, hc, hcx⟩ := ancIter_succ_iff.mp hanc
    have hcn : c < n := anc_lt H k p c hpn hc
    cases f with
    | zero => omega
    | succ f =>
      have h1 : [p, a].Sublist (dfsF (chF parent n) f c) :=
        ih f c p a hc hpn hpa han (by omega)
      have h2 : (dfsF (chF parent n) f c).Sublist
          (((chF parent n x).map (dfsF (chF parent n) f)).flatten) :=
        List.sublist_flatten_of_mem
          (List.mem_map_of_mem _ (mem_chF.mpr ⟨hcn, hcx⟩))
      exact ((h1.trans h2).cons x : _)

theorem dfsF_sibling_sublist {parent : Nat → Option Nat} {rank : Nat → Nat} {n : Nat}
    (H : RegForest parent rank n) :
    ∀ k f x p a b, ancIter parent k p = some x → p < n →
      parent a = some p → parent b = some p → a < b → b < n →
      k + 1 < f → [a, b].Sublist (dfsF (chF parent n) f x) := by
  intro k
  induction k with
  | zero =>
    intro f x p a b hanc hpn hpa hpb hab hbn hf
    cases hanc
    cases f with
    | zero => omega
    | succ f =>
      have hch : [a, b].Sublist (chF parent n x) := by
        have h1 : List.filter (fun z => parent z = some x) [a, b] = [a, b] := by
          simp [List.filter, hpa, hpb]
        have h2 := List.Sublist.filter (fun z => parent z = some x)
          (pair_sublist_range hab hbn)
        rw [h1] at h2
        exact h2
      have hfl : [a, b].Sublist (((chF parent n x).map (dfsF (chF parent n) f)).flatten) :=
        pair_sublist_flatten hch (dfsF_self_mem (by omega)) (dfsF_self_mem (by omega))
      exact (hfl.cons x : _)
  | succ k ih =>
    intro f x p a b hanc hpn hpa hpb hab hbn hf
    obtain ⟨c, hc, hcx⟩ := ancIter_succ_iff.mp hanc
    have hcn : c < n := anc_lt H k p c hpn hc
    cases f with
    | zero => omega
    | succ f =>
      have h1 : [a, b].Sublist (dfsF (chF parent n) f c) :=
        ih f c p a b hc hpn hpa hpb hab hbn (by omega)
      have h2 : (dfsF (chF parent n) f c).Sublist
          (((chF parent n x).map (dfsF (chF parent n) f)).flatten) :=
        List.sublist_flatten_of_mem
          (List.mem_map_of_mem _ (mem_chF.mpr ⟨hcn, hcx⟩))
      exact ((h1.trans h2).cons x : _)

/-! ## The spawn order: completeness, uniqueness, parent and sibling order -/

theorem dfsF_congr {ch1 ch2 : Nat → List Nat} (h : ∀ x, ch1 x = ch2 x) :
    ∀ f x, dfsF ch1 f x = dfsF ch2 f x := by
  intro f
  induction f with
  | zero => intro x; rfl
  | succ f ih =>
    intro x
    simp only [dfsF]
    rw [h x]
    have : List.map (dfsF ch1 f) (ch2 x) = List.map (dfsF ch2 f) (ch2 x) :=
      List.map_congr_left (fun a _ => ih a)
    rw [this]

/-- Under `Hroot`, the spawn order is the flattening of the depth-first
traversals of the registration-order forest, from the roots. -/
theorem spawnOrder_eq_chF {parent : Nat → Option Nat} {n : Nat}
    (Hroot : ∀ a p, a < n → parent a = some p → parent p = none → p < a) :
    spawnOrder parent n =
      ((rootsList parent n).map (dfsF (chF parent n) (n + 1))).flatten := by
  unfold spawnOrder
  congr 1
  exact List.map_congr_left
    (fun r _ => dfsF_congr (fun p => childrenOf_buildTree Hroot p) _ r)

theorem mem_rootsList {parent : Nat → Option Nat} {n r : Nat} :
    r ∈ rootsList parent n ↔ r < n ∧ parent r = none := by
  simp [rootsList, List.mem_filter, List.mem_range, Option.isNone_iff_eq_none]

theorem spawnOrder_mem_lt {parent : Nat → Option Nat} {n : Nat}
    (Hroot : ∀ a p, a < n → parent a = some p → parent p = none → p < a) :
    ∀ a ∈ spawnOrder parent n, a < n := by
  intro a ha
  rw [spawnOrder_eq_chF Hroot, List.mem_flatten] at ha
  obtain ⟨l, hl, hal⟩ := ha
  rw [List.mem_map] at hl
  obtain ⟨r, hr, rfl⟩ := hl
  rcases dfsF_mem_lt _ _ _ hal with h | h
  · exact h ▸ (mem_rootsList.mp hr).1
  · exact h

theorem spawnOrder_complete {parent : Nat → Option Nat} {rank : Nat → Nat} {n : Nat}
    (H : RegForest parent rank n)
    (Hroot : ∀ a p, a < n → parent a = some p → parent p = none → p < a) :
    ∀ a, a < n → a ∈ spawnOrder parent n := by
  intro a ha
  obtain ⟨r, k, hk, hr, hkr⟩ := anc_root_exists H a ha
  have hrn : r < n := anc_lt H k a r ha hk
  have hkn : k < n + 1 := by
    have := H.2.2 a ha
    omega
  rw [spawnOrder_eq_chF Hroot, List.mem_flatten]
  exact ⟨dfsF (chF parent n) (n + 1) r,
    List.mem_map_of_mem _ (mem_rootsList.mpr ⟨hrn, hr⟩),
    mem_dfsF_of_ancIter H k (n + 1) r a ha hk hkn⟩

theorem spawnOrder_nodup {parent : Nat → Option Nat} {rank : Nat → Nat} {n : Nat}
    (H : RegForest parent rank n)
    (Hroot : ∀ a p, a < n → parent a = some p → parent p = none → p < a) :
    (spawnOrder parent n).Nodup := by
  have hch : ∀ x c, c ∈ chF parent n x → parent c = some x :=
    fun x c hc => (mem_chF.mp hc).2
  rw [spawnOrder_eq_chF Hroot, List.nodup_flatten]
  constructor
  · intro l hl
    rw [List.mem_map] at hl
    obtain ⟨r, _, rfl⟩ := hl
    exact dfsF_nodup H _ r
  · rw [List.pairwise_map]
    have hnd : (rootsList parent n).Nodup :=
      List.Nodup.filter _ (List.nodup_range n)
    refine List.Pairwise.imp_of_mem ?_ hnd
    intro r1 r2 hm1 hm2 hne y hy1 hy2
    obtain ⟨k1, hk1⟩ := dfsF_mem_ancIter hch _ r1 y hy1
    obtain ⟨k2, hk2⟩ := dfsF_mem_ancIter hch _ r2 y hy2
    exact root_disjoint (mem_rootsList.mp hm1).2 (mem_rootsList.mp hm2).2 hne hk1 hk2

theorem spawnOrder_parent_before {parent : Nat → Option Nat} {rank : Nat → Nat} {n : Nat}
    (H : RegForest parent rank n)
    (Hroot : ∀ a p, a < n → parent a = some p → parent p = none → p < a) :
    ∀ a p, a < n → parent a = some p → [p, a].Sublist (spawnOrder parent n) := by
  intro a p ha hp
  have hpn : p < n := H.1 a p ha hp
  obtain ⟨r, k, hk, hr, hkr⟩ := anc_root_exists H p hpn
  have hrn : r < n := anc_lt H k p r hpn hk
  have hkn : k + 1 < n + 1 := by
    have := H.2.2 p hpn
    omega
  have h1 : [p, a].Sublist (dfsF (chF parent n) (n + 1) r) :=
    dfsF_parent_sublist H k (n + 1) r p a hk hpn hp ha hkn
  rw [spawnOrder_eq_chF Hroot]
  exact h1.trans (List.sublist_flatten_of_mem
    (List.mem_map_of_mem _ (mem_rootsList.mpr ⟨hrn, hr⟩)))

theorem spawnOrder_sibling_order {parent : Nat → Option Nat} {rank : Nat → Nat} {n : Nat}
    (H : RegForest parent rank n)
    (Hroot : ∀ a p, a < n → parent a = some p → parent p = none → p < a) :
    ∀ a b, a < b → b < n → parent a = parent b →
      [a, b].Sublist (spawnOrder parent n) := by
  intro a b hab hbn hpar
  rw [spawnOrder_eq_chF Hroot]
  cases hpa : parent a with
  | none =>
    have hpb : parent b = none := by rw [← hpar, hpa]
    have hroots : [a, b].Sublist (rootsList parent n) := by
      have h1 : List.filter (fun z => (parent z).isNone) [a, b] = [a, b] := by
        simp [List.filter, hpa, hpb]
      have h2 := List.Sublist.filter (fun z => (parent z).isNone)
        (pair_sublist_range hab hbn)
      rw [h1] at h2
      exact h2
    exact pair_sublist_flatten hroots (dfsF_self_mem (by omega))
      (dfsF_self_mem (by omega))
  | some p =>
    have hpb : parent b = some p := by rw [← hpar, hpa]
    have hpn : p < n := H.1 b p hbn hpb
    obtain ⟨r, k, hk, hr, hkr⟩ := anc_root_exists H p hpn
    have hrn : r < n := anc_lt H k p r hpn hk
    have hkn : k + 1 < n + 1 := by
      have := H.2.2 p hpn
      omega
    have h1 : [a, b].Sublist (dfsF (chF parent n) (n + 1) r) :=
      dfsF_sibling_sublist H k (n + 1) r p a b hk hpn hpa hpb hab hbn hkn
    exact h1.trans (List.sublist_flatten_of_mem
      (List.mem_map_of_mem _ (mem_rootsList.mpr ⟨hrn, hr⟩)))

/-! ## Executing the spawn list -/

theorem updActor_self (st : Nat → ActorSt) (i : Nat) (a : ActorSt) :
    updActor st i a i = a := by
  simp [updActor]

theorem updActor_other (st : Nat → ActorSt) {i j : Nat} (a : ActorSt) (h : j ≠ i) :
    updActor st i a j = st j := by
  simp [updActor, h]

theorem actorSpawn_fresh {parent : Nat → Option Nat} {st : Nat → ActorSt} {i : Nat}
    (hent : (st i).entity = none) (hsetup : (st i).setup = [])
    (hpar : ∀ p, parent i = some p → isAlive (st p) = true) :
    ∃ a', actorSpawn parent st i = (.ok (updActor st i a'), [.spawnActor i]) ∧
      a'.entity = some true := by
  have hna : isAlive (st i) = false := by simp [isAlive, hent]
  by_cases hn : (st i).name = ""
  · cases hp : parent i with
    | none =>
      refine ⟨{ st i with entity := some true }, ?_, rfl⟩
      simp [actorSpawn, hna, hn, hp, hsetup, applySetup, Except.map]
    | some p =>
      refine ⟨{ st i with entity := some true }, ?_, rfl⟩
      simp [actorSpawn, hna, hn, hp, hpar p hp, hsetup, applySetup, Except.map]
  · cases hp : parent i with
    | none =>
      refine ⟨{ st i with
        attrs := attrSet (st i).attrs "role_name" (st i).name,
        entity := some true }, ?_, rfl⟩
      simp [actorSpawn, hna, hn, hp, hsetup, applySetup, Except.map]
    | some p =>
      refine ⟨{ st i with
        attrs := attrSet (st i).attrs "role_name" (st i).name,
        entity := some true }, ?_, rfl⟩
      simp [actorSpawn, hna, hn, hp, hpar p hp, hsetup, applySetup, Except.map]

theorem pair_sublist_cons_of_head {p i : Nat} {rest : List Nat}
    (h : [p, i].Sublist (i :: rest)) : i ∈ rest := by
  cases h with
  | cons _ h' => exact h'.subset (by simp)
  | cons₂ _ h' => exact List.singleton_sublist.mp h'

/-- Spawning a list of pairwise-distinct fresh actors whose parents are either
already alive or spawned earlier in the same list succeeds, and the remote
calls are exactly the spawn calls, in list order. -/
theorem runSpawnList_ok {parent : Nat → Option Nat} :
    ∀ (ord : List Nat) (st : Nat → ActorSt),
      ord.Nodup →
      (∀ i ∈ ord, (st i).entity = none ∧ (st i).setup = []) →
      (∀ i p, i ∈ ord → parent i = some p →
        isAlive (st p) = true ∨ [p, i].Sublist ord) →
      ∃ st', runSpawnList parent st ord = (.ok st', ord.map RemoteCall.spawnActor) := by
  intro ord
  induction ord with
  | nil =>
    intro st _ _ _
    exact ⟨st, rfl⟩
  | cons i rest ih =>
    intro st hnd hfresh hpar
    have hi := hfresh i (List.mem_cons_self i rest)
    have hnotrest : i ∉ rest := (List.nodup_cons.mp hnd).1
    have hpari : ∀ p, parent i = some p → isAlive (st p) = true := by
      intro p hp
      rcases hpar i p (List.mem_cons_self i rest) hp with h | h
      · exact h
      · exact absurd (pair_sublist_cons_of_head h) hnotrest
    obtain ⟨a', heq, halive⟩ := actorSpawn_fresh hi.1 hi.2 hpari
    have hrest : ∃ st', runSpawnList parent (updActor st i a') rest =
        (.ok st', rest.map RemoteCall.spawnActor) := by
      refine ih (updActor st i a') (List.nodup_cons.mp hnd).2 ?_ ?_
      · intro j hj
        rw [updActor_other st a' (show j ≠ i by rintro rfl; exact hnotrest hj)]
        exact hfresh j (List.mem_cons_of_mem i hj)
      · intro j p hj hp
        rcases hpar j p (List.mem_cons_of_mem i hj) hp with h | h
        · left
          by_cases hpi : p = i
          · subst hpi
            rw [updActor_self]
            simp [isAlive, halive]
          · rw [updActor_other st a' hpi]
            exact h
        · cases h with
          | cons _ h' => exact Or.inr h'
          | cons₂ _ h' =>
            left
            rw [updActor_self]
            simp [isAlive, halive]
    obtain ⟨st', hst'⟩ := hrest
    refine ⟨st', ?_⟩
    simp only [runSpawnList, heq, hst', List.map_cons, List.singleton_append]

/-! ## The remote calls issued while spawning -/

theorem set_gravity_calls {i : Nat} {a : ActorSt} {opt : Bool} {c : RemoteCall}
    (h : c ∈ (set_gravity i a opt).2) : c = .setEnableGravity i opt := by
  unfold set_gravity at h
  split at h
  · simpa using h
  · split at h <;> simp at h

theorem set_physics_calls {i : Nat} {a : ActorSt} {opt : Bool} {c : RemoteCall}
    (h : c ∈ (set_physics i a opt).2) : c = .setEnablePhysics i opt := by
  unfold set_physics at h
  split at h
  · simpa using h
  · simp at h

theorem setupDispatch_calls {i : Nat} {a : ActorSt} {key : SetupKey} {opt : Bool}
    {c : RemoteCall} (h : c ∈ (setupDispatch i a key opt).2) :
    (∃ o, c = RemoteCall.setEnableGravity i o) ∨
      (∃ o, c = RemoteCall.setEnablePhysics i o) := by
  cases key with
  | pair s b => simp [setupDispatch] at h
  | str s =>
    simp only [setupDispatch] at h
    by_cases h1 : s = "set_gravity"
    · rw [if_pos h1] at h
      exact Or.inl ⟨opt, set_gravity_calls h⟩
    · rw [if_neg h1] at h
      by_cases h2 : s = "set_physics"
      · rw [if_pos h2] at h
        exact Or.inr ⟨opt, set_physics_calls h⟩
      · rw [if_neg h2] at h
        simp at h

theorem applySetup_calls {i : Nat} :
    ∀ (l : List (SetupKey × Bool)) (a : ActorSt) (c : RemoteCall),
      c ∈ (applySetup i a l).2 →
      (∃ o, c = RemoteCall.setEnableGravity i o) ∨
        (∃ o, c = RemoteCall.setEnablePhysics i o) := by
  intro l
  induction l with
  | nil =>
    intro a c h
    simp [applySetup] at h
  | cons kv rest ih =>
    intro a c h
    obtain ⟨key, opt⟩ := kv
    rw [applySetup] at h
    rcases hd : setupDispatch i a key opt with ⟨res, tr⟩
    rw [hd] at h
    cases res with
    | ok a' =>
      simp only [List.mem_append] at h
      rcases h with h | h
      · exact setupDispatch_calls (by rw [hd]; exact h)
      · exact ih a' c h
    | error e => exact setupDispatch_calls (by rw [hd]; exact h)

/-- The trace of one `Actor.spawn` is either empty (an error before the remote
call) or the spawn call followed by the deferred-bag replay. -/
theorem actorSpawn_trace_shape (parent : Nat → Option Nat) (st : Nat → ActorSt) (i : Nat) :
    (actorSpawn parent st i).2 = [] ∨
      ∃ a2 l, (actorSpawn parent st i).2 =
        RemoteCall.spawnActor i :: (applySetup i a2 l).2 := by
  by_cases h1 : isAlive (st i) = true
  · left
    simp [actorSpawn, h1]
  · cases hp : parent i with
    | none =>
      right
      refine ⟨{ (if (st i).name = "" then st i
          else { st i with attrs := attrSet (st i).attrs "role_name" (st i).name })
          with entity := some true },
        (if (st i).name = "" then st i
          else { st i with attrs := attrSet (st i).attrs "role_name" (st i).name }).setup,
        ?_⟩
      simp [actorSpawn, h1, hp]
    | some p =>
      by_cases h2 : isAlive (st p) = true
      · right
        refine ⟨{ (if (st i).name = "" then st i
            else { st i with attrs := attrSet (st i).attrs "role_name" (st i).name })
            with entity := some true },
          (if (st i).name = "" then st i
            else { st i with attrs := attrSet (st i).attrs "role_name" (st i).name }).setup,
          ?_⟩
        simp [actorSpawn, h1, hp, h2]
      · left
        simp [actorSpawn, h1, hp, h2]

theorem actorSpawn_calls {parent : Nat → Option Nat} {st : Nat → ActorSt} {i : Nat}
    {c : RemoteCall} (h : c ∈ (actorSpawn parent st i).2) :
    c = .spawnActor i ∨ (∃ o, c = .setEnableGravity i o) ∨
      (∃ o, c = .setEnablePhysics i o) := by
  rcases actorSpawn_trace_shape parent st i with hsh | ⟨a2, l, hsh⟩
  · rw [hsh] at h
    simp at h
  · rw [hsh] at h
    simp only [List.mem_cons] at h
    rcases h with rfl | h
    · exact Or.inl rfl
    · exact Or.inr (applySetup_calls _ _ c h)

theorem runSpawnList_spawn_mem {parent : Nat → Option Nat} {j : Nat} :
    ∀ (ord : List Nat) (st : Nat → ActorSt),
      RemoteCall.spawnActor j ∈ (runSpawnList parent st ord).2 → j ∈ ord := by
  intro ord
  induction ord with
  | nil =>
    intro st h
    simp [runSpawnList] at h
  | cons i rest ih =>
    intro st h
    rw [runSpawnList] at h
    rcases hs : actorSpawn parent st i with ⟨res, tr⟩
    rw [hs] at h
    cases res with
    | ok st' =>
      simp only [List.mem_append] at h
      rcases h with h | h
      · rcases actorSpawn_calls (show RemoteCall.spawnActor j ∈ (actorSpawn parent st i).2 by
            rw [hs]; exact h) with h' | ⟨o, h'⟩ | ⟨o, h'⟩
        · rw [RemoteCall.spawnActor.inj h']
          exact List.mem_cons_self i rest
        · cases h'
        · cases h'
      · exact List.mem_cons_of_mem i (ih st' h)
    | error e =>
      rcases actorSpawn_calls (show RemoteCall.spawnActor j ∈ (actorSpawn parent st i).2 by
          rw [hs]; exact h) with h' | ⟨o, h'⟩ | ⟨o, h'⟩
      · rw [RemoteCall.spawnActor.inj h']
        exact List.mem_cons_self i rest
      · cases h'
      · cases h'

/-! ## Cyclic parent references are silently dropped by the traversal -/

/-- Without any hypothesis, every child recorded in `actors_tree` has the key
as its parent (children are only ever appended under their own parent). -/
theorem buildTree_children_parent {parent : Nat → Option Nat} :
    ∀ (n : Nat) {k : Nat} {l : List Nat} {c : Nat},
      dictLookup (buildTree parent n) k = some l → c ∈ l → parent c = some k := by
  intro n
  induction n with
  | zero =>
    intro k l c h
    simp [buildTree, dictLookup] at h
  | succ n ih =>
    intro k l c h hc
    rw [buildTree_succ] at h
    cases hpn : parent n with
    | none =>
      simp only [buildTreeStep, hpn] at h
      by_cases hk : k = n
      · subst hk
        rw [dictLookup_set_self] at h
        cases h
        simp at hc
      · rw [dictLookup_set_other _ _ (Ne.symm hk)] at h
        exact ih h hc
    | some q =>
      simp only [buildTreeStep, hpn] at h
      by_cases hk : k = q
      · subst hk
        rw [dictLookup_append_self] at h
        cases h
        rw [List.mem_append] at hc
        rcases hc with hc | hc
        · cases hd : dictLookup (buildTree parent n) k with
          | none => rw [hd] at hc; simp at hc
          | some l0 =>
            rw [hd] at hc
            exact ih hd hc
        · rw [List.mem_singleton] at hc
          rw [hc]
          exact hpn
      · rw [dictLookup_append_other _ _ (fun h' => hk h'.symm)] at h
        exact ih h hc

theorem childrenOf_parent {parent : Nat → Option Nat} {n : Nat} :
    ∀ x c, c ∈ childrenOf (buildTree parent n) x → parent c = some x := by
  intro x c hc
  unfold childrenOf at hc
  cases hd : dictLookup (buildTree parent n) x with
  | none => rw [hd] at hc; simp at hc
  | some l =>
    rw [hd] at hc
    exact buildTree_children_parent n hd hc

theorem ancIter_cycle_mul {parent : Nat → Option Nat} {m i : Nat}
    (hcyc : ancIter parent m i = some i) :
    ∀ q, ancIter parent (q * m) i = some i := by
  intro q
  induction q with
  | zero => simp [ancIter]
  | succ q ih =>
    have : (q + 1) * m = q * m + m := by ring
    rw [this, ancIter_add, ih]
    simpa using hcyc

theorem ancIter_isSome_of_le {parent : Nat → Option Nat} {a : Nat} {j k : Nat}
    (hle : j ≤ k) (h : (ancIter parent k a).isSome) :
    (ancIter parent j a).isSome := by
  obtain ⟨d, rfl⟩ := Nat.exists_eq_add_of_le hle
  rw [ancIter_add] at h
  cases hj : ancIter parent j a with
  | none => rw [hj] at h; simp at h
  | some c => simp

/-- On a parent cycle, the ancestor chain never terminates. -/
theorem ancIter_cycle_isSome {parent : Nat → Option Nat} {m i : Nat}
    (hm : 0 < m) (hcyc : ancIter parent m i = some i) :
    ∀ j, (ancIter parent j i).isSome := by
  intro j
  have h1 : j ≤ j * m := Nat.le_mul_of_pos_right j hm
  have h2 : (ancIter parent (j * m) i).isSome := by
    rw [ancIter_cycle_mul hcyc j]
    rfl
  exact ancIter_isSome_of_le h1 h2

/-- An actor lying on a cycle of parent references is never visited by the
spawn traversal: it has no root ancestor, so no depth-first walk reaches it. -/
theorem cycle_not_mem_spawnOrder {parent : Nat → Option Nat} {n m i : Nat}
    (hm : 0 < m) (hcyc : ancIter parent m i = some i) :
    i ∉ spawnOrder parent n := by
  intro hmem
  unfold spawnOrder at hmem
  rw [List.mem_flatten] at hmem
  obtain ⟨l, hl, hil⟩ := hmem
  rw [List.mem_map] at hl
  obtain ⟨r, hr, rfl⟩ := hl
  obtain ⟨k, hk⟩ := dfsF_mem_ancIter childrenOf_parent _ r i hil
  have hrnone : parent r = none := (mem_rootsList.mp hr).2
  have h1 : ancIter parent (k + 1) i = none := by
    rw [ancIter_add, hk]
    simp [ancIter_one, hrnone]
  have h2 := ancIter_cycle_isSome hm hcyc (k + 1)
  rw [h1] at h2
  simp at h2

/-! ## Claim C1 -/

/-- C1 (counterexample): for the acyclic registration in which child 0 is
registered before its parentless parent 1, `spawn_all_actors` issues the spawn
call for the parent only — actor 0, which has a parent, never receives a spawn
call at all, so it does not appear after its parent in the spawn order. -/
theorem C1_cex_child_before_root :
    RegForest parC1 rankC1 2 ∧ parC1 0 = some 1 ∧
      (spawn_all_actors parC1 2 (fun _ => freshActor)).2 = [RemoteCall.spawnActor 1] ∧
      RemoteCall.spawnActor 0 ∉ (spawn_all_actors parC1 2 (fun _ => freshActor)).2 := by
  refine ⟨⟨?_, ?_, ?_⟩, rfl, ?_, ?_⟩
  · intro a p ha h
    interval_cases a <;> simp [parC1] at h <;> omega
  · intro a p ha h
    interval_cases a <;> simp [parC1] at h
    subst h
    simp [rankC1]
  · intro a ha
    interval_cases a <;> simp [rankC1]
  · rfl
  · intro h
    rw [show (spawn_all_actors parC1 2 (fun _ => freshActor)).2 =
      [RemoteCall.spawnActor 1] from rfl] at h
    simp at h

/-- C1 (amended): for every acyclic set of registered actors in which no
parentless actor is registered after one of its children, `spawn_all_actors`
on fresh actors issues exactly one spawn call per registered actor, in an
order where every actor with a parent appears strictly after its parent and
actors sharing the same parent (or both being roots) appear in registration
order. -/
theorem C1_spawn_all_order {parent : Nat → Option Nat} {rank : Nat → Nat} {n : Nat}
    (st : Nat → ActorSt)
    (H : RegForest parent rank n)
    (Hroot : ∀ a p, a < n → parent a = some p → parent p = none → p < a)
    (Hfresh : ∀ i, i < n → (st i).entity = none ∧ (st i).setup = []) :
    (∃ st', spawn_all_actors parent n st =
      (.ok st', (spawnOrder parent n).map RemoteCall.spawnActor)) ∧
    (spawnOrder parent n).Nodup ∧
    (∀ a, a < n → a ∈ spawnOrder parent n) ∧
    (∀ a p, a < n → parent a = some p → [p, a].Sublist (spawnOrder parent n)) ∧
    (∀ a b, a < b → b < n → parent a = parent b →
      [a, b].Sublist (spawnOrder parent n)) := by
  refine ⟨?_, spawnOrder_nodup H Hroot, spawnOrder_complete H Hroot,
    spawnOrder_parent_before H Hroot, spawnOrder_sibling_order H Hroot⟩
  apply runSpawnList_ok (spawnOrder parent n) st (spawnOrder_nodup H Hroot)
  · intro i hi
    exact Hfresh i (spawnOrder_mem_lt Hroot i hi)
  · intro i p hi hp
    exact Or.inr (spawnOrder_parent_before H Hroot i p (spawnOrder_mem_lt Hroot i hi) hp)

/-- C1 (witness): the amended theorem applied to the two-actor registration
`parW` with fresh actors. -/
theorem C1_spawn_all_order_witness :
    (∃ st', spawn_all_actors parW 2 (fun _ => freshActor) =
      (.ok st', (spawnOrder parW 2).map RemoteCall.spawnActor)) ∧
    (spawnOrder parW 2).Nodup ∧
    (∀ a, a < 2 → a ∈ spawnOrder parW 2) ∧
    (∀ a p, a < 2 → parW a = some p → [p, a].Sublist (spawnOrder parW 2)) ∧
    (∀ a b, a < b → b < 2 → parW a = parW b → [a, b].Sublist (spawnOrder parW 2)) := by
  refine @C1_spawn_all_order parW (fun i => i) 2 (fun _ => freshActor) ⟨?_, ?_, ?_⟩ ?_ ?_
  · intro a p ha h
    interval_cases a <;> simp [parW] at h <;> omega
  · intro a p ha h
    interval_cases a <;> simp [parW] at h
    subst h
    decide
  · intro a ha
    exact ha
  · intro a p ha h hp
    interval_cases a <;> simp [parW] at h
    subst h
    omega
  · intro i _
    exact ⟨rfl, rfl⟩

/-! ## Claim C2 -/

/-- C2 (counterexample): with the two-actor parent cycle registered,
`spawn_all_actors` does not fail — it returns successfully having issued no
remote call at all: the cyclic actors are silently skipped rather than
rejected with a fatal error. -/
theorem C2_cex_cycle_no_error :
    spawn_all_actors parC2 2 (fun _ => freshActor) =
      (Except.ok (fun _ => freshActor), []) ∧
    parC2 0 = some 1 ∧ parC2 1 = some 0 := by
  exact ⟨rfl, rfl, rfl⟩

/-- C2 (amended): when the registered parent references contain a cycle,
`spawn_all_actors` silently skips the cyclic actors instead of failing: an
actor on a parent cycle never occurs in the computed spawn order, and no
remote spawn call is ever issued for it, whatever the registry state. -/
theorem C2_cycle_silently_skipped {parent : Nat → Option Nat} {n m i : Nat}
    (st : Nat → ActorSt) (hm : 0 < m) (hcyc : ancIter parent m i = some i) :
    i ∉ spawnOrder parent n ∧
      RemoteCall.spawnActor i ∉ (spawn_all_actors parent n st).2 := by
  refine ⟨cycle_not_mem_spawnOrder hm hcyc, ?_⟩
  intro h
  exact cycle_not_mem_spawnOrder hm hcyc
    (runSpawnList_spawn_mem (spawnOrder parent n) st h)

/-- C2 (witness): the amended theorem applied to the two-actor cycle. -/
theorem C2_cycle_silently_skipped_witness :
    0 ∉ spawnOrder parC2 2 ∧
      RemoteCall.spawnActor 0 ∉ (spawn_all_actors parC2 2 (fun _ => freshActor)).2 :=
  C2_cycle_silently_skipped (fun _ => freshActor) (by omega)
    (show ancIter parC2 2 0 = some 0 from rfl)

/-! ## Destroy order (claim C8) and teardown (claim C6) -/

theorem destroyList_spec :
    ∀ (l : List Nat) (st : Nat → ActorSt), l.Nodup →
      (destroyList st l).2 =
        (l.filter (fun i => (st i).entity.isSome)).map RemoteCall.destroyActor ∧
      ∀ j, ((destroyList st l).1 j).entity =
        if j ∈ l then none else (st j).entity := by
  intro l
  induction l with
  | nil =>
    intro st _
    exact ⟨rfl, fun j => by simp [destroyList]⟩
  | cons i rest ih =>
    intro st hnd
    have hnotrest : i ∉ rest := (List.nodup_cons.mp hnd).1
    by_cases hi : (st i).entity.isSome
    · have hstep : actorDestroy st i =
          (updActor st i { st i with entity := none }, [RemoteCall.destroyActor i]) := by
        simp [actorDestroy, hi]
      obtain ⟨htr, hst⟩ := ih (updActor st i { st i with entity := none })
        (List.nodup_cons.mp hnd).2
      constructor
      · simp only [destroyList, hstep, htr]
        have hfc : rest.filter
              (fun j => ((updActor st i { st i with entity := none }) j).entity.isSome) =
            rest.filter (fun j => (st j).entity.isSome) := by
          refine List.filter_congr ?_
          intro j hj
          rw [updActor_other st _ (show j ≠ i by rintro rfl; exact hnotrest hj)]
        rw [hfc, List.filter_cons, if_pos (by simpa using hi)]
        rfl
      · intro j
        simp only [destroyList, hstep, hst j]
        by_cases hj : j ∈ rest
        · simp [hj, List.mem_cons]
        · rw [if_neg hj]
          by_cases hij : j = i
          · subst hij
            rw [updActor_self, if_pos (List.mem_cons_self j rest)]
          · rw [updActor_other st _ hij, if_neg (by simp [hij, hj])]
    · have hstep : actorDestroy st i = (st, []) := by
        simp [actorDestroy, hi]
      obtain ⟨htr, hst⟩ := ih st (List.nodup_cons.mp hnd).2
      have hnone : (st i).entity = none := Option.not_isSome_iff_eq_none.mp hi
      constructor
      · simp only [destroyList, hstep, htr]
        rw [List.filter_cons, if_neg (by simpa using hi)]
        rfl
      · intro j
        simp only [destroyList, hstep, hst j]
        by_cases hj : j ∈ rest
        · simp [hj, List.mem_cons]
        · rw [if_neg hj]
          by_cases hij : j = i
          · subst hij
            rw [if_pos (List.mem_cons_self j rest), hnone]
          · rw [if_neg (by simp [hij, hj])]

theorem stopList_entity :
    ∀ (l : List Nat) (st : Nat → ActorSt) (j : Nat),
      ((stopList st l).1 j).entity = (st j).entity := by
  intro l
  induction l with
  | nil =>
    intro st j
    rfl
  | cons i rest ih =>
    intro st j
    simp only [stopList]
    by_cases hs : (st i).isSensor
    · rw [if_pos hs]
      unfold sensorStop
      by_cases hc : (st i).entity.isSome && (st i).listening
      · rw [if_pos hc]
        rw [ih]
        by_cases hij : j = i
        · subst hij
          simp [updActor]
        · simp [updActor, hij]
      · rw [if_neg hc]
        exact ih st j
    · rw [if_neg hs]
      exact ih st j

/-- C8 (counterexample): with parent 0 registered before its child 1 and both
spawned, `destroy_all_actors` issues the parent's destroy call first — the
child's remote destroy is not issued before the parent's. -/
theorem C8_cex_parent_destroyed_first :
    parW 1 = some 0 ∧
      (destroy_all_actors 2 (fun _ => spawnedActor)).2 =
        [RemoteCall.destroyActor 0, RemoteCall.destroyActor 1] := by
  exact ⟨rfl, rfl⟩

/-- C8 (amended): `destroy_all_actors` destroys the currently spawned entities
in plain registration order (and clears every entity slot); a child's destroy
call therefore comes before its parent's only when the child was registered
first. -/
theorem C8_destroy_all_order (n : Nat) (st : Nat → ActorSt) :
    (destroy_all_actors n st).2 =
      ((List.range n).filter (fun i => (st i).entity.isSome)).map
        RemoteCall.destroyActor ∧
    ∀ j, j < n → ((destroy_all_actors n st).1 j).entity = none := by
  obtain ⟨htr, hst⟩ := destroyList_spec (List.range n) st (List.nodup_range n)
  refine ⟨htr, ?_⟩
  intro j hj
  have h2 := hst j
  rw [if_pos (List.mem_range.mpr hj)] at h2
  exact h2

/-! ## The connection probe (claim C9) -/

theorem test_connection_spec (ctx : CtxSt) (probeOk : Bool) (t : ℚ) :
    ∃ b ctx', test_connection ctx probeOk t = .ok (b, ctx') ∧
      ctx'.n = ctx.n ∧ ctx'.parent = ctx.parent ∧ ctx'.actors = ctx.actors ∧
      ctx'.timeout_sec = ctx.timeout_sec ∧
      (ctx.client = none → b = false ∧ ctx' = ctx) ∧
      (probeOk = false → b = false) ∧
      (ctx.client.isSome → ctx'.client = some ⟨ctx.timeout_sec⟩) := by
  cases hc : ctx.client with
  | none =>
    refine ⟨false, ctx, ?_, rfl, rfl, rfl, rfl, fun _ => ⟨rfl, rfl⟩, fun _ => rfl, ?_⟩
    · simp [test_connection, hc]
    · intro h
      simp [hc] at h
  | some c =>
    cases probeOk with
    | true =>
      refine ⟨true, { ctx with client := some ⟨ctx.timeout_sec⟩ }, ?_, rfl, rfl, rfl,
        rfl, ?_, ?_, fun _ => rfl⟩
      · simp [test_connection, hc, get_server_version]
      · intro h
        simp [hc] at h
      · intro h
        cases h
    | false =>
      refine ⟨false, { ctx with client := some ⟨ctx.timeout_sec⟩ }, ?_, rfl, rfl, rfl,
        rfl, ?_, fun _ => rfl, fun _ => rfl⟩
      · simp [test_connection, hc, get_server_version]
      · intro h
        simp [hc] at h

/-- C9: the liveness probe never raises: it always returns `.ok` with a
boolean — `false` whenever the client handle is absent or the probe fails —
and whenever a client handle exists, the client's timeout is restored to the
configured default `timeout_sec` before returning, on the success and the
failure path alike. -/
theorem C9_test_connection_total (ctx : CtxSt) (probeOk : Bool) (t : ℚ) :
    ∃ b ctx', test_connection ctx probeOk t = .ok (b, ctx') ∧
      (ctx.client = none → b = false) ∧
      (probeOk = false → b = false) ∧
      (ctx.client.isSome → ctx'.client = some ⟨ctx.timeout_sec⟩) := by
  obtain ⟨b, ctx', heq, _, _, _, _, hnone, hfail, hrestore⟩ :=
    test_connection_spec ctx probeOk t
  exact ⟨b, ctx', heq, fun h => (hnone h).1, hfail, hrestore⟩

/-- C9 (witness): the probe on the concrete connected context, with a failing
probe and a 0.1 s test timeout. -/
theorem C9_test_connection_total_witness :
    ∃ b ctx', test_connection ctxW false (1 / 10) = .ok (b, ctx') ∧
      (ctxW.client = none → b = false) ∧
      (false = false → b = false) ∧
      (ctxW.client.isSome → ctx'.client = some ⟨ctxW.timeout_sec⟩) :=
  C9_test_connection_total ctxW false (1 / 10)

/-! ## Context exit (claim C6) -/

/-- C6: exiting the `Context` scope always performs the full teardown and
never swallows an in-flight exception: `__exit__` completes without raising,
afterwards no registered actor holds an entity (none is `Spawned`, none is
alive), the client handle is cleared, and the returned suppression flag is
`false`, so an exception raised inside the scope still propagates. -/
theorem C6_context_exit_teardown (ctx : CtxSt) (probeOk excPresent : Bool) :
    ∃ ctx' tr, context_exit ctx probeOk excPresent = .ok ((ctx', false), tr) ∧
      ctx'.client = none ∧
      ∀ i, i < ctx.n →
        (ctx'.actors i).entity = none ∧ isAlive (ctx'.actors i) = false := by
  obtain ⟨b, ctx1, heq, hn, hpar, hact, hts, _, _, _⟩ :=
    test_connection_spec ctx probeOk (1 / 10)
  refine ⟨(disconnect ctx1).1, (disconnect ctx1).2, ?_, ?_, ?_⟩
  · simp only [context_exit, heq, Bool.false_and]
  · simp [disconnect]
  · intro i hi
    have hent : ((disconnect ctx1).1.actors i).entity = none := by
      simp only [disconnect]
      obtain ⟨_, hst⟩ := destroyList_spec (List.range ctx1.n)
        ((stopList ctx1.actors (List.range ctx1.n)).1) (List.nodup_range ctx1.n)
      rw [hst i, if_pos (List.mem_range.mpr (by rw [hn]; exact hi))]
    exact ⟨hent, by simp [isAlive, hent]⟩

/-- C6 (witness): exiting the concrete connected two-actor context with an
in-flight exception. -/
theorem C6_context_exit_teardown_witness :
    ∃ ctx' tr, context_exit ctxW false true = .ok ((ctx', false), tr) ∧
      ctx'.client = none ∧
      ∀ i, i < ctxW.n →
        (ctx'.actors i).entity = none ∧ isAlive (ctx'.actors i) = false :=
  C6_context_exit_teardown ctxW false true

/-! ## Driven-mode activation conflict (claim C4) -/

/-- C4: activating the manual (Driven-mode) executor while the server already
reports synchronous stepping raises `ExecutorError` and issues no remote
mutating call at all (no settings change, no step): the recorded trace is
empty and the world is untouched. -/
theorem C4_manual_enter_conflict (fds : ℚ) (w : SimWorld)
    (h : is_synchronous_mode w = true) :
    manual_executor_enter fds w = (.error .executorError, []) := by
  simp [manual_executor_enter, h]

/-- C4 (witness): activation against the concrete already-synchronous world. -/
theorem C4_manual_enter_conflict_witness :
    manual_executor_enter 1 worldSync = (.error .executorError, []) :=
  C4_manual_enter_conflict 1 worldSync rfl

/-! ## Zero-duration waits (claim C7) -/

/-- C7: in Driven mode, `wait_ticks 0` and `wait_real_seconds 0` return
immediately without invoking `tick()`: the world is unchanged and the remote
trace is empty, whatever the clock readings. -/
theorem C7_wait_zero_no_tick (w : SimWorld) (clock : Nat → ℚ) (fuel : Nat) :
    wait_ticks 0 w = (w, []) ∧ wait_real_seconds 0 clock fuel w = (w, []) := by
  constructor
  · rfl
  · cases fuel with
    | zero => rfl
    | succ f => simp [wait_real_seconds, waitRealLoop]

/-! ## Pre-spawn gravity configuration (claim C3) -/

/-- C3: calling `set_gravity` on a fresh `Unspawned` actor does not record the
option into the deferred-action bag — it raises `KeyError`, because the
pre-spawn branch executes `self._setup['set_gravity', option]`, a dictionary
read with a tuple key that is never present, instead of an assignment.  The
claimed deferred application after spawn therefore cannot happen. -/
theorem C3_set_gravity_keyerror :
    set_gravity 0 freshActor true = (.error .keyError, []) ∧
      set_gravity 0 freshActor false = (.error .keyError, []) ∧
      ∀ (i : Nat) (a : ActorSt) (opt : Bool), isAlive a = false →
        set_gravity i a opt = (.error .keyError, []) ∨
          (set_gravity i a opt).1 = .ok a := by
  refine ⟨rfl, rfl, ?_⟩
  intro i a opt hna
  unfold set_gravity
  rw [hna]
  cases hl : setupLookup a.setup (.pair "set_gravity" opt) with
  | none => left; rfl
  | some v => right; rfl

/-! ## Attribute bag on a live actor (claim C10) -/

theorem attrLookup_set_self (l : List (String × String)) (k v : String) :
    attrLookup (attrSet l k v) k = some v := by
  induction l with
  | nil => simp [attrSet, attrLookup]
  | cons h t ih =>
    obtain ⟨k', v'⟩ := h
    by_cases hk : k' = k <;> simp [attrSet, attrLookup, hk, ih]

/-- C10: `set_attribute` on an alive actor leaves the wrapper (and in
particular its stored attribute bag) unchanged; on a non-alive actor the
key/value pair is recorded into the bag. -/
theorem C10_set_attribute (a : ActorSt) (k v : String) :
    (isAlive a = true → set_attribute a k v = a) ∧
    (isAlive a = false →
      attrLookup (set_attribute a k v).attrs k = some v) := by
  constructor
  · intro h
    simp [set_attribute, h]
  · intro h
    simp [set_attribute, h, attrLookup_set_self]

/-- C10 (witness): an alive actor ignores the write, a fresh actor records
it. -/
theorem C10_set_attribute_witness :
    set_attribute spawnedActor "color" "red" = spawnedActor ∧
      attrLookup (set_attribute freshActor "color" "red").attrs "color" =
        some "red" :=
  ⟨(C10_set_attribute spawnedActor "color" "red").1 rfl,
    (C10_set_attribute freshActor "color" "red").2 rfl⟩

/-- C8 (witness): the amended destroy-order theorem on the concrete two-actor
context. -/
theorem C8_destroy_all_order_witness :
    (destroy_all_actors 2 (fun _ => spawnedActor)).2 =
      ((List.range 2).filter
        (fun i => ((fun _ => spawnedActor) i : ActorSt).entity.isSome)).map
        RemoteCall.destroyActor ∧
    ∀ j, j < 2 →
      ((destroy_all_actors 2 (fun _ => spawnedActor)).1 j).entity = none :=
  C8_destroy_all_order 2 (fun _ => spawnedActor)

/-- C3 (witness): the evaluation of `set_gravity` at the failing input, via
the claim theorem. -/
theorem C3_set_gravity_keyerror_witness :
    set_gravity 0 freshActor true = (.error .keyError, []) ∧
      (set_gravity 1 freshActor true = (.error .keyError, []) ∨
        (set_gravity 1 freshActor true).1 = .ok freshActor) :=
  ⟨C3_set_gravity_keyerror.1, C3_set_gravity_keyerror.2.2 1 freshActor true rfl⟩

/-! ## The single-slot sensor mailbox (claim C5) -/

theorem pfx_nil_or_cons {e : SlotEv} {l p : List SlotEv} (h : Pfx p (e :: l)) :
    p = [] ∨ ∃ p', p = e :: p' ∧ Pfx p' l := by
  obtain ⟨t, ht⟩ := h
  cases p with
  | nil => exact Or.inl rfl
  | cons x p' =>
    simp only [List.cons_append, List.cons.injEq] at ht
    exact Or.inr ⟨p', by rw [ht.1], ⟨t, ht.2⟩⟩

/-- Running any point of any callback sequence: whenever the readiness event
is set, the slot holds exactly the sample of the most recently completed
callback, and the observation point lies at a callback boundary. -/
theorem mailbox_invariant :
    ∀ (ss : List SensorData) (st0 : SensorSt) (p : List SlotEv),
      Pfx p (ss.flatMap callbackEvents) →
      (runEvents st0 p).ready = true →
      (p = [] ∧ st0.ready = true) ∨
        ∃ k s, ss[k]? = some s ∧
          p = (ss.take (k + 1)).flatMap callbackEvents ∧
          runEvents st0 p = ⟨some s, true⟩ := by
  intro ss
  induction ss with
  | nil =>
    intro st0 p hp hr
    obtain ⟨t, ht⟩ := hp
    simp only [List.flatMap_nil, List.append_eq_nil] at ht
    exact Or.inl ⟨ht.1, by rw [ht.1] at hr; exact hr⟩
  | cons s ss ih =>
    intro st0 p hp hr
    rw [List.flatMap_cons] at hp
    rcases pfx_nil_or_cons hp with rfl | ⟨p1, rfl, hp1⟩
    · exact Or.inl ⟨rfl, hr⟩
    rcases pfx_nil_or_cons hp1 with rfl | ⟨p2, rfl, hp2⟩
    · simp [runEvents, stepEv] at hr
    rcases pfx_nil_or_cons hp2 with rfl | ⟨p3, rfl, hp3⟩
    · simp [runEvents, stepEv] at hr
    right
    have hrun : ∀ q, runEvents st0 (SlotEv.clear :: SlotEv.store s :: SlotEv.set :: q) =
        runEvents ⟨some s, true⟩ q := fun q => rfl
    rw [hrun] at hr
    rcases ih ⟨some s, true⟩ p3 hp3 hr with ⟨rfl, _⟩ | ⟨k, s', hks, hpeq, hrun'⟩
    · refine ⟨0, s, by simp, ?_, ?_⟩
      · simp [callbackEvents]
      · exact hrun []
    · refine ⟨k + 1, s', ?_, ?_, ?_⟩
      · simpa using hks
      · rw [List.take_succ_cons, List.flatMap_cons, hpeq]
        rfl
      · rw [hrun, hrun']

/-- C5: for every scripted sequence of sensor callbacks with strictly
increasing frame indices, run from the fresh mailbox: each callback clears the
readiness event, stores, and sets the event last (`callbackEvents`), and at
every observation point (a cut of the event sequence) where the readiness
event is set, the slot holds the sample of the most recent completed callback
— whose frame is strictly larger than every earlier sample's frame, so no
earlier sample is ever exposed once a later one has landed. -/
theorem C5_mailbox_latest (ss : List SensorData) (p : List SlotEv)
    (hp : Pfx p (ss.flatMap callbackEvents))
    (hr : (runEvents sensorInit p).ready = true)
    (hmono : List.Pairwise (fun s1 s2 => s1.frame < s2.frame) ss) :
    ∃ k s, ss[k]? = some s ∧
      p = (ss.take (k + 1)).flatMap callbackEvents ∧
      runEvents sensorInit p = ⟨some s, true⟩ ∧
      ∀ j sj, j < k → ss[j]? = some sj → sj.frame < s.frame := by
  rcases mailbox_invariant ss sensorInit p hp hr with ⟨_, h0⟩ | ⟨k, s, h1, h2, h3⟩
  · simp [sensorInit] at h0
  · refine ⟨k, s, h1, h2, h3, ?_⟩
    intro j sj hj hsj
    have hk : k < ss.length := by
      by_contra hk
      rw [List.getElem?_eq_none (by omega)] at h1
      cases h1
    have hjlen : j < ss.length := by omega
    have hjv : ss[j] = sj := by
      have := hsj
      rw [List.getElem?_eq_getElem hjlen] at this
      exact Option.some.inj this
    have hkv : ss[k] = s := by
      have := h1
      rw [List.getElem?_eq_getElem hk] at this
      exact Option.some.inj this
    have := List.pairwise_iff_getElem.mp hmono j k hjlen hk hj
    rw [hjv, hkv] at this
    exact this

/-- C5 (witness): two callbacks with frames 7 and 8; after both complete, the
reader sees frame 8. -/
theorem C5_mailbox_latest_witness :
    ∃ k s, [(⟨7, 0⟩ : SensorData), ⟨8, 0⟩][k]? = some s ∧
      ([SlotEv.clear, SlotEv.store ⟨7, 0⟩, SlotEv.set,
        SlotEv.clear, SlotEv.store ⟨8, 0⟩, SlotEv.set] : List SlotEv) =
        (([(⟨7, 0⟩ : SensorData), ⟨8, 0⟩].take (k + 1)).flatMap callbackEvents) ∧
      runEvents sensorInit
        [SlotEv.clear, SlotEv.store ⟨7, 0⟩, SlotEv.set,
         SlotEv.clear, SlotEv.store ⟨8, 0⟩, SlotEv.set] = ⟨some s, true⟩ ∧
      ∀ j sj, j < k → [(⟨7, 0⟩ : SensorData), ⟨8, 0⟩][j]? = some sj →
        sj.frame < s.frame :=
  C5_mailbox_latest [⟨7, 0⟩, ⟨8, 0⟩] _ ⟨[], rfl⟩ rfl
    (by simp)

end Carla1s
